import Mathlib

set_option maxRecDepth 8000
set_option maxHeartbeats 1000000

/-!
Verification development for the jewelry-attribute normalization core of the
smart-scraper backend (`src/database/db_inseartin.py`).

The Python functions `extract_metals`, `extract_karat_info`, `parse_ct`,
`standardize_diawt_value` and `extract_diamond_weight` are shallowly embedded
over `List Char`.  Python's `re` module is modelled by a small backtracking
engine (`matchM`) whose exploration order coincides with Python's: alternation
prefers the left branch, quantifiers are greedy, `findall` scans left to right
collecting non-overlapping matches, and `re.sub` / `re.search` scan the same
way.  Notes on modelling choices:

* Python floats are modelled as exact rationals (`ℚ`); every numeric literal
  reachable from the carat regular expression is a short decimal or fraction,
  and `float(num) / float(denom)` with a zero denominator raises
  `ZeroDivisionError` (caught by `parse_ct`), modelled by returning `none`.
* `str.upper` / `str.lower` / character classes are modelled over ASCII, which
  covers the retail-copy inputs the module is written for.
* Python's `set` iterates in an unspecified order; `sorted(set(xs), key=len,
  reverse=True)` is modelled as a stable sort, by descending length, of the
  first-occurrence deduplication of `xs`.  All facts proved below are
  insensitive to the order of equal-length elements except on concrete inputs,
  where the lengths involved are distinct.
-/

namespace Scraper

/-- ASCII uppercase of one character, model of `str.upper`. -/
def upperCh (c : Char) : Char :=
  if 'a' ≤ c ∧ c ≤ 'z' then Char.ofNat (c.toNat - 32) else c

/-- ASCII lowercase of one character, model of `str.lower`. -/
def lowerCh (c : Char) : Char :=
  if 'A' ≤ c ∧ c ≤ 'Z' then Char.ofNat (c.toNat + 32) else c

def upperL (l : List Char) : List Char := l.map upperCh

def toL (s : String) : List Char := s.toList

/-- Characters matched by the regex class `\s` (ASCII). -/
def isSpaceCh (c : Char) : Bool :=
  c == ' ' || c == '\t' || c == '\n' || c == '\r' || c == '\x0b' || c == '\x0c'

/-- Characters matched by the regex class `\w` (ASCII). -/
def isWordCh (c : Char) : Bool := c.isAlphanum || c == '_'

/-- Python `str.strip()` (ASCII whitespace). -/
def trimWs (l : List Char) : List Char :=
  ((l.dropWhile isSpaceCh).reverse.dropWhile isSpaceCh).reverse

/-- Python substring containment `a in b`. -/
def isSubL (a : List Char) : List Char → Bool
  | [] => a.isEmpty
  | c :: rest => a.isPrefixOf (c :: rest) || isSubL a rest

/-- Python `str.split(sep)` for a one-character separator. -/
def splitOnCh (sep : Char) : List Char → List (List Char)
  | [] => [[]]
  | c :: rest =>
    let r := splitOnCh sep rest
    if c == sep then [] :: r
    else
      match r with
      | h :: t => (c :: h) :: t
      | [] => [[c]]

/-- Python `str.replace(pat, rep)`: replace all non-overlapping occurrences,
left to right.  (`pat` is never empty at the call sites below.)  The fuel
argument only serves structural termination; `replaceL` supplies enough. -/
def replaceF (pat rep : List Char) : Nat → List Char → List Char
  | 0, _ => []
  | _ + 1, [] => []
  | fuel + 1, c :: rest =>
    if pat ≠ [] ∧ pat.isPrefixOf (c :: rest) then
      rep ++ replaceF pat rep fuel ((c :: rest).drop pat.length)
    else
      c :: replaceF pat rep fuel rest

def replaceL (pat rep : List Char) (l : List Char) : List Char :=
  replaceF pat rep (l.length + 1) l

/-! ### A backtracking regex engine

`matchM r prev l k` attempts to match `r` at the start of `l`, where `prev` is
the character immediately before `l` in the scanned text (`none` at the start
of the text); on each way of matching (explored in Python's preference order)
the continuation `k` is invoked with the updated previous-character and the
remaining text, and the first `some` answer is returned.  This reproduces
Python `re`'s leftmost, left-alternative-first, greedy-first backtracking. -/

inductive RE : Type where
  | eps   : RE
  | cls   : (Char → Bool) → RE
  | seq   : RE → RE → RE
  | alt   : RE → RE → RE
  | star  : (Char → Bool) → RE
  | wordB : RE
  | nlb   : (Char → Bool) → RE

def chrRE (c : Char) : RE := RE.cls (fun x => x == c)

/-- Literal string as a regex. -/
def strL : List Char → RE
  | [] => RE.eps
  | c :: cs => RE.seq (chrRE c) (strL cs)

/-- Ordered alternation `x1|x2|...|xn` (fails on the empty list). -/
def alts (L : List RE) : RE := L.foldr RE.alt (RE.cls (fun _ => false))

def seqs (L : List RE) : RE := L.foldr RE.seq RE.eps

/-- Greedy Kleene star over a character class: consume as much as possible,
backtracking one character at a time. -/
def starM (p : Char → Bool) (prev : Option Char) (l : List Char)
    (k : Option Char → List Char → Option α) : Option α :=
  match l with
  | [] => k prev []
  | c :: rest =>
    if p c then
      match starM p (some c) rest k with
      | some x => some x
      | none => k prev (c :: rest)
    else
      k prev (c :: rest)

def matchM : RE → Option Char → List Char → (Option Char → List Char → Option α) → Option α
  | .eps, prev, l, k => k prev l
  | .cls p, _, l, k =>
    (match l with
     | [] => none
     | c :: rest => if p c then k (some c) rest else none)
  | .seq a b, prev, l, k => matchM a prev l (fun p2 l2 => matchM b p2 l2 k)
  | .alt a b, prev, l, k =>
    (match matchM a prev l k with
     | some x => some x
     | none => matchM b prev l k)
  | .star p, prev, l, k => starM p prev l k
  | .wordB, prev, l, k =>
    let wl := match prev with | some c => isWordCh c | none => false
    let wr := match l with | c :: _ => isWordCh c | [] => false
    if wl != wr then k prev l else none
  | .nlb p, prev, l, k =>
    (match prev with
     | some c => if p c then none else k prev l
     | none => k prev l)

/-- Whole-match attempt at one position: returns the matched prefix and the
rest of the text. -/
def matchSub (r : RE) (prev : Option Char) (l : List Char) :
    Option (List Char × List Char) :=
  matchM r prev l (fun _ rest => some (l.take (l.length - rest.length), rest))

/-- Model of `re.findall` style scanning: try `mh` at every position from left
to right; on a match, collect its payload and continue right after it (Python
advances one position past a zero-width match).  The fuel argument only
serves structural termination; `findallG` supplies enough, since every step
moves at least one position to the right. -/
def findallF (mh : Option Char → List Char → Option (α × List Char)) :
    Nat → Option Char → List Char → List α
  | 0, _, _ => []
  | _ + 1, prev, [] =>
    (match mh prev [] with
     | some (x, _) => [x]
     | none => [])
  | fuel + 1, prev, c :: rest =>
    match mh prev (c :: rest) with
    | none => findallF mh fuel (some c) rest
    | some (x, rem) =>
      if (c :: rest).length - rem.length = 0 then
        x :: findallF mh fuel (some c) rest
      else
        x :: findallF mh fuel (((c :: rest).take ((c :: rest).length - rem.length)).getLast?)
          ((c :: rest).drop ((c :: rest).length - rem.length))

def findallG (mh : Option Char → List Char → Option (α × List Char))
    (prev : Option Char) (l : List Char) : List α :=
  findallF mh (l.length + 1) prev l

/-- Model of `re.search`: first position (left to right) where `mh` matches. -/
def scanSearch (mh : Option Char → List Char → Option α) :
    Option Char → List Char → Option α
  | prev, [] => mh prev []
  | prev, c :: rest =>
    match mh prev (c :: rest) with
    | some x => some x
    | none => scanSearch mh (some c) rest

/-- Model of `re.sub`: scan left to right, emitting replacements for matches
and copying non-matching characters.  `mh` returns the replacement text and
the rest of the input after the match.  Fuel as in `findallF`. -/
def subScanF (mh : Option Char → List Char → Option (List Char × List Char)) :
    Nat → Option Char → List Char → List Char
  | 0, _, _ => []
  | _ + 1, prev, [] =>
    (match mh prev [] with
     | some (rep, _) => rep
     | none => [])
  | fuel + 1, prev, c :: rest =>
    match mh prev (c :: rest) with
    | none => c :: subScanF mh fuel (some c) rest
    | some (rep, rem) =>
      if (c :: rest).length - rem.length = 0 then
        rep ++ c :: subScanF mh fuel (some c) rest
      else
        rep ++ subScanF mh fuel (((c :: rest).take ((c :: rest).length - rem.length)).getLast?)
          ((c :: rest).drop ((c :: rest).length - rem.length))

def subScanG (mh : Option Char → List Char → Option (List Char × List Char))
    (prev : Option Char) (l : List Char) : List Char :=
  subScanF mh (l.length + 1) prev l

/-! ### The concrete patterns of `db_inseartin.py` -/

def wsStar : RE := RE.star isSpaceCh
/-- `\s+`, written as `\s\s*`. -/
def wsPlus : RE := RE.seq (RE.cls isSpaceCh) wsStar
/-- `\d{1,2}`, greedy: two digits preferred over one. -/
def digit12 : RE := RE.seq (RE.cls Char.isDigit) (RE.alt (RE.cls Char.isDigit) RE.eps)
/-- `\d+`. -/
def digitsP : RE := RE.seq (RE.cls Char.isDigit) (RE.star Char.isDigit)
/-- `(?:K|CT|CARAT)`. -/
def unitKRE : RE := alts [strL (toL "K"), strL (toL "CT"), strL (toL "CARAT")]
/-- `TWO[- ]TONE`. -/
def twoToneRE : RE :=
  RE.seq (strL (toL "TWO")) (RE.seq (RE.cls (fun c => c == '-' || c == ' ')) (strL (toL "TONE")))
/-- `(?:WHITE|YELLOW|ROSE|STRAWBERRY|TWO[- ]TONE)` from the first metal pattern. -/
def colorAlts : List RE :=
  [strL (toL "WHITE"), strL (toL "YELLOW"), strL (toL "ROSE"),
   strL (toL "STRAWBERRY"), twoToneRE]

/-- Pattern family (a):
`\b\d{1,2}(?:K|CT|CARAT)\s*(?:WHITE|YELLOW|ROSE|STRAWBERRY|TWO[- ]TONE)?\s*GOLD\b` -/
def patA : RE :=
  seqs [RE.wordB, digit12, unitKRE, wsStar, RE.alt (alts colorAlts) RE.eps,
        wsStar, strL (toL "GOLD"), RE.wordB]

/-- The alternatives of pattern family (b), in the source's order. -/
def metalNameAlts : List RE :=
  [strL (toL "PLATINUM"),
   RE.seq (strL (toL "STERLING")) (RE.seq wsStar (strL (toL "SILVER"))),
   strL (toL "SILVER"),
   RE.seq (strL (toL "WHITE")) (RE.seq wsStar (strL (toL "GOLD"))),
   RE.seq (strL (toL "YELLOW")) (RE.seq wsStar (strL (toL "GOLD"))),
   RE.seq (strL (toL "ROSE")) (RE.seq wsStar (strL (toL "GOLD"))),
   RE.seq (strL (toL "STRAWBERRY")) (RE.seq wsStar (strL (toL "GOLD"))),
   RE.seq (strL (toL "TWO"))
     (RE.seq (RE.cls (fun c => c == '-' || c == ' '))
       (RE.seq (strL (toL "TONE")) (RE.seq wsStar (strL (toL "GOLD"))))),
   strL (toL "TITANIUM"), strL (toL "BRASS"), strL (toL "PALLADIUM"),
   strL (toL "COPPER"), strL (toL "ALLOY")]

/-- Pattern family (b): `\b(?:PLATINUM|STERLING\s*SILVER|...|ALLOY)\b`. -/
def patB : RE := RE.seq RE.wordB (RE.seq (alts metalNameAlts) RE.wordB)

/-- Pattern family (c): `(?<![\d.])\b\d{1,2}(?:K|CT|CARAT)\b`. -/
def patC : RE :=
  seqs [RE.nlb (fun c => c.isDigit || c == '.'), RE.wordB, digit12, unitKRE, RE.wordB]

def findallStr (r : RE) (t : List Char) : List (List Char) :=
  findallG (matchSub r) none t

/-! ### `extract_metals` -/

/-- First-occurrence deduplication; model of Python `set(...)` (whose
iteration order is unspecified) feeding a stable sort. -/
def dedupFirst : List (List Char) → List (List Char) → List (List Char)
  | _, [] => []
  | seen, x :: xs =>
    if x ∈ seen then dedupFirst seen xs else x :: dedupFirst (x :: seen) xs

/-- `sorted(..., key=len, reverse=True)`: length-descending comparison. -/
def lenGE (a b : List Char) : Prop := b.length ≤ a.length

instance : DecidableRel lenGE := fun a b => Nat.decLe b.length a.length

instance : IsTotal (List Char) lenGE := ⟨fun a b => Nat.le_total b.length a.length⟩

instance : IsTrans (List Char) lenGE := ⟨fun _ _ _ h1 h2 => le_trans h2 h1⟩

/-- The greedy substring filter: keep a match only if it is not a substring of
an already-kept (longer) match. -/
def keepNonSub : List (List Char) → List (List Char) → List (List Char)
  | acc, [] => acc
  | acc, m :: ms =>
    if acc.any (fun longer => isSubL m longer) then keepNonSub acc ms
    else keepNonSub (acc ++ [m]) ms

/-- All matches of the three pattern families, in source order, over the
uppercased text. -/
def allMatchesL (t : List Char) : List (List Char) :=
  findallStr patA t ++ findallStr patB t ++ findallStr patC t

/-- `extract_metals` on an (already uppercased) character list. -/
def extract_metalsL (t : List Char) : List (List Char) :=
  keepNonSub [] (List.insertionSort lenGE (dedupFirst [] (allMatchesL t)))

/-- `extract_metals(text)` from `db_inseartin.py`. -/
def extract_metals (text : String) : List String :=
  if text = "" then []
  else (extract_metalsL (upperL text.toList)).map (fun l => String.mk l)

/-! ### `extract_karat_info` -/

/-- The bare-metal names checked by the normalization loop, in source order. -/
def metalNames : List (List Char) :=
  [toL "PLATINUM", toL "STERLING SILVER", toL "SILVER", toL "TITANIUM",
   toL "BRASS", toL "PALLADIUM", toL "COPPER", toL "ALLOY"]

/-- The `&` normalization: `' & '.join(p.strip() for p in value.split('&'))`. -/
def ampJoin (v : List Char) : List Char :=
  List.intercalate (toL " & ") ((splitOnCh '&' v).map trimWs)

/-- One step of `re.sub(r'(\d{1,2})(CT|CARAT)', r'\1K', value)`. -/
def ctKAt (prev : Option Char) (l : List Char) : Option (List Char × List Char) :=
  matchM digit12 prev l (fun p1 l1 =>
    matchM (RE.alt (strL (toL "CT")) (strL (toL "CARAT"))) p1 l1 (fun _ l2 =>
      some (l.take (l.length - l1.length) ++ ['K'], l2)))

/-- One step of `re.sub(r'(\d{1,2}K)([A-Z])', r'\1 \2', value)`. -/
def kLetterAt (prev : Option Char) (l : List Char) : Option (List Char × List Char) :=
  matchM (RE.seq digit12 (chrRE 'K')) prev l (fun p1 l1 =>
    matchM (RE.cls (fun c => 'A' ≤ c && c ≤ 'Z')) p1 l1 (fun _ l2 =>
      some (l.take (l.length - l1.length) ++ ' ' :: l1.take (l1.length - l2.length), l2)))

/-- The normalization pass of `extract_karat_info` (lines 81-97 of the
source): `&` spacing, concatenation fixes, CT→K, karat/letter spacing,
lowercase. -/
def karatNormalize (v0 : List Char) : List Char :=
  let v1 := if v0.contains '&' then ampJoin v0 else v0
  let v2 := replaceL (toL "WHITEGOLD") (toL "WHITE GOLD") v1
  let v3 := replaceL (toL "YELLOWGOLD") (toL "YELLOW GOLD") v2
  let v4 := replaceL (toL "ROSEGOLD") (toL "ROSE GOLD") v3
  let v5 := replaceL (toL "TWOTONE") (toL "TWO-TONE GOLD") v4
  let v6 := replaceL (toL "TWO TONE") (toL "TWO-TONE") v5
  let v7 := subScanG ctKAt none v6
  let v8 := subScanG kLetterAt none v7
  v8.map lowerCh

/-- The alternatives of the `Diamond <Metal>` fallback regex, in source
order (note `STERLING\s+SILVER` here versus `STERLING\s*SILVER` in (b)). -/
def fbNameAlts : List RE :=
  [strL (toL "PLATINUM"),
   RE.seq (strL (toL "STERLING")) (RE.seq wsPlus (strL (toL "SILVER"))),
   strL (toL "SILVER"), strL (toL "TITANIUM"), strL (toL "BRASS"),
   strL (toL "PALLADIUM"), strL (toL "COPPER"), strL (toL "ALLOY")]

/-- One attempt of
`re.search(r'\bDIAMOND\s+(PLATINUM|STERLING\s+SILVER|...|ALLOY)\b', ...)`,
returning capture group 1. -/
def dmAt (prev : Option Char) (l : List Char) : Option (List Char) :=
  matchM (RE.seq RE.wordB (strL (toL "DIAMOND"))) prev l (fun p1 l1 =>
    matchM wsPlus p1 l1 (fun p2 l2 =>
      matchM (RE.seq (alts fbNameAlts) RE.wordB) p2 l2 (fun _ l3 =>
        some (l2.take (l2.length - l3.length)))))

def dmSearch (t : List Char) : Option (List Char) := scanSearch dmAt none t

/-- `extract_karat_info(text)` from `db_inseartin.py`.  (`if not text` covers
the empty string; a `None` argument is modelled by `extract_karat_info_opt`.) -/
def extract_karat_info (text : String) : Option String :=
  if text = "" then none
  else
    match extract_metalsL (upperL text.toList) with
    | value :: _ =>
      let v := upperL value
      (match metalNames.find? (fun m => isSubL m v) with
       | some m => some (String.mk (m.map lowerCh))
       | none => some (String.mk (karatNormalize v)))
    | [] =>
      let t := upperL text.toList
      (match dmSearch t with
       | some name => some (String.mk (name.map lowerCh))
       | none => if isSubL (toL "DIAMOND") t then some "diamond" else none)

/-- `extract_karat_info(None)` / `extract_karat_info(s)`. -/
def extract_karat_info_opt : Option String → Option String
  | none => none
  | some s => extract_karat_info s

/-- `extract_karat_info` with the `Diamond <Metal>` fallback branch (source
lines 99-105) removed; used for the refinement claim that the branch is dead. -/
def extract_karat_info_noFallback (text : String) : Option String :=
  if text = "" then none
  else
    match extract_metalsL (upperL text.toList) with
    | value :: _ =>
      let v := upperL value
      (match metalNames.find? (fun m => isSubL m v) with
       | some m => some (String.mk (m.map lowerCh))
       | none => some (String.mk (karatNormalize v)))
    | [] =>
      if isSubL (toL "DIAMOND") (upperL text.toList) then some "diamond" else none

/-! ### `parse_ct`

Python floats are modelled as exact rational values.  To keep everything
kernel-computable the values are carried as integer fractions with a positive
denominator (`Frac`), compared exactly by cross-multiplication; `Frac.toRat`
interprets them in `ℚ` for the statements below. -/

/-- An exact rational value `num / den` (denominator kept positive by
construction). -/
structure Frac where
  num : ℤ
  den : ℤ
deriving DecidableEq, Repr

def Frac.toRat (f : Frac) : ℚ := (f.num : ℚ) / (f.den : ℚ)

/-- Build a fraction with a positive denominator from a nonzero denominator. -/
def mkFrac (n d : ℤ) : Frac := if d < 0 then ⟨-n, -d⟩ else ⟨n, d⟩

/-- Exact comparison of fraction values (both denominators positive). -/
def fracLt (a b : Frac) : Bool := a.num * b.den < b.num * a.den

/-- Numeric value of a non-empty all-digit string. -/
def digitsVal (l : List Char) : Option ℕ :=
  if l.isEmpty then none
  else if l.all Char.isDigit then
    some (l.foldl (fun n c => 10 * n + (c.toNat - 48)) 0)
  else none

/-- Model of Python `int(s)` on the strings reachable here (optional sign,
decimal digits; exotic forms such as underscores are unreachable from the
regex groups that feed it). -/
def parseIntPy (s : List Char) : Option ℤ :=
  let t := trimWs s
  match t with
  | '-' :: ds => (digitsVal ds).map (fun n => -(n : ℤ))
  | '+' :: ds => (digitsVal ds).map (fun n => (n : ℤ))
  | ds => (digitsVal ds).map (fun n => (n : ℤ))

/-- An optional leading `+`/`-` sign: sign factor and remaining characters. -/
def signSplit (t : List Char) : ℤ × List Char :=
  match t with
  | '+' :: r => (1, r)
  | '-' :: r => (-1, r)
  | r => (1, r)

/-- Base-10 value of a digit string. -/
def digitsBase (l : List Char) : ℕ := l.foldl (fun n c => 10 * n + (c.toNat - 48)) 0

/-- Model of Python `float(s)` on the decimal forms reachable here, as an
exact rational value. -/
def parseFloatPy (s : List Char) : Option Frac :=
  match splitOnCh '.' (signSplit (trimWs s)).2 with
  | [ds] => (digitsVal ds).map (fun n => ⟨(signSplit (trimWs s)).1 * (n : ℤ), 1⟩)
  | [ip, fp] =>
    if ip.isEmpty && fp.isEmpty then none
    else if ip.all Char.isDigit && fp.all Char.isDigit then
      some ⟨(signSplit (trimWs s)).1 * ((digitsBase ip : ℤ) * (10 : ℤ) ^ fp.length + (digitsBase fp : ℤ)),
            (10 : ℤ) ^ fp.length⟩
    else none
  | _ => none

/-- `parse_ct(val)` from `db_inseartin.py`, on a character list.  A zero
denominator (Python `ZeroDivisionError`: the divisor float is `0.0` exactly
when its numerator is `0`) and any unpacking/parsing failure yield `none`,
matching the `except: return None`. -/
def parse_ctL (val : List Char) : Option Frac :=
  if val.contains '-' && val.contains '/' then
    match splitOnCh '-' val with
    | [whole, frac] =>
      (match splitOnCh '/' frac with
       | [num, denom] =>
         (match parseIntPy whole, parseFloatPy num, parseFloatPy denom with
          | some w, some n, some d =>
            if d.num = 0 then none
            else
              let q := mkFrac (n.num * d.den) (n.den * d.num)
              some ⟨w * q.den + q.num, q.den⟩
          | _, _, _ => none)
       | _ => none)
    | _ => none
  else if val.contains '/' then
    match splitOnCh '/' val with
    | [num, denom] =>
      (match parseFloatPy num, parseFloatPy denom with
       | some n, some d =>
         if d.num = 0 then none else some (mkFrac (n.num * d.den) (n.den * d.num))
       | _, _ => none)
    | _ => none
  else parseFloatPy val

/-- `parse_ct` on strings. -/
def parse_ct (val : String) : Option Frac := parse_ctL val.toList

/-! ### `standardize_diawt_value` and `extract_diamond_weight` -/

/-- `(\d+-\d+/\d+|\d+/\d+|\d*\.\d+|\d+)` — the number alternation used both in
the carat findall and in `standardize_diawt_value`'s search. -/
def numRE : RE :=
  alts [seqs [digitsP, chrRE '-', digitsP, chrRE '/', digitsP],
        seqs [digitsP, chrRE '/', digitsP],
        seqs [RE.star Char.isDigit, chrRE '.', digitsP],
        digitsP]

/-- `(CTW|CT\s*TW|CT|CARAT\s*TW|CARAT|CT\.*\s*T*W*\.?)`. -/
def unitRE : RE :=
  alts [strL (toL "CTW"),
        seqs [strL (toL "CT"), wsStar, strL (toL "TW")],
        strL (toL "CT"),
        seqs [strL (toL "CARAT"), wsStar, strL (toL "TW")],
        strL (toL "CARAT"),
        seqs [strL (toL "CT"), RE.star (fun c => c == '.'), wsStar,
              RE.star (fun c => c == 'T'), RE.star (fun c => c == 'W'),
              RE.alt (chrRE '.') RE.eps]]

/-- One attempt of the carat findall at a position: group 1 (the number) and
group 2 (the unit), with full backtracking across the groups. -/
def caratAt (prev : Option Char) (l : List Char) :
    Option ((List Char × List Char) × List Char) :=
  matchM numRE prev l (fun p1 l1 =>
    matchM wsStar p1 l1 (fun p2 l2 =>
      matchM unitRE p2 l2 (fun _ l3 =>
        some ((l.take (l.length - l1.length), l2.take (l2.length - l3.length)), l3))))

def caratFindall (t : List Char) : List (List Char × List Char) :=
  findallG caratAt none t

/-- One step of `re.sub(r'\s*/\s*', '/', value)`. -/
def slashAt (prev : Option Char) (l : List Char) : Option (List Char × List Char) :=
  matchM (seqs [wsStar, chrRE '/', wsStar]) prev l (fun _ rest => some (['/'], rest))

/-- One step of `re.sub(r'\s+', ' ', value)`. -/
def wsAt (prev : Option Char) (l : List Char) : Option (List Char × List Char) :=
  matchM wsPlus prev l (fun _ rest => some ([' '], rest))

/-- One attempt of `re.search(r'(\d+-\d+/\d+|\d+/\d+|\d*\.\d+|\d+)', value)`. -/
def numAt (prev : Option Char) (l : List Char) : Option (List Char) :=
  matchM numRE prev l (fun _ rest => some (l.take (l.length - rest.length)))

/-- `standardize_diawt_value(value)` from `db_inseartin.py`. -/
def standardize_diawt_value (value : List Char) : Option (List Char) :=
  if value.isEmpty then none
  else
    let v1 := (trimWs value).map lowerCh
    let v2 := subScanG slashAt none v1
    let v3 := subScanG wsAt none v2
    let hasTw :=
      [toL " tw", toL "tw", toL "t.w.", toL "ctw"].any (fun p => isSubL p v3)
    match scanSearch numAt none v3 with
    | none => none
    | some np => some (np ++ (if hasTw then toL "ct tw" else toL "ct"))

/-- A carat candidate: stripped number substring, stripped unit substring,
parsed value (`(val.strip(), unit.strip(), ct_val)` in the source). -/
abbrev Cand := List Char × List Char × Frac

/-- `^\s*\d{1,2}(?:K|CT|CARAT)(?:\s*(?:[A-Z]+\s*&\s*[A-Z]+|ROSE|WHITE|YELLOW|STRAWBERRY|TWO-TONE)\s*GOLD)?\s*`
(the `re.IGNORECASE` flag makes `[A-Z]` mean any ASCII letter; the text is
already uppercased, so the letter literals are unaffected). -/
def alphaPlus : RE := RE.seq (RE.cls Char.isAlpha) (RE.star Char.isAlpha)

def stripColorAlts : List RE :=
  [RE.seq alphaPlus (RE.seq wsStar (RE.seq (chrRE '&') (RE.seq wsStar alphaPlus))),
   strL (toL "ROSE"), strL (toL "WHITE"), strL (toL "YELLOW"),
   strL (toL "STRAWBERRY"), strL (toL "TWO-TONE")]

def stripRE : RE :=
  seqs [wsStar, digit12, unitKRE,
        RE.alt (seqs [wsStar, alts stripColorAlts, wsStar, strL (toL "GOLD")]) RE.eps,
        wsStar]

/-- The `re.sub` with a `^`-anchored pattern: the only possible match is at
position 0, so at most one leading removal happens. -/
def stripLeadingMetal (t : List Char) : List Char :=
  match matchM stripRE none t (fun _ rest => some rest) with
  | some rest => rest
  | none => t

/-- The uppercasing and comma-to-dot preprocessing of
`extract_diamond_weight`: `text = str(text).upper()` then
`text = text.replace(',', '.')` (every comma, unconditionally). -/
def preprocessDW (text : String) : List Char :=
  (upperL text.toList).map (fun c => if c == ',' then '.' else c)

/-- The `metal_free_text` of `extract_diamond_weight`. -/
def metalFreeOf (text : String) : List Char :=
  stripLeadingMetal (preprocessDW text)

def exclusionWords : List (List Char) :=
  [toL "CUBIC ZIRCONIA", toL "SAPPHIRE", toL "CREATED"]

/-- The `diamond_cts` candidate list: matches whose number parses and whose
value is `< 5.0`; a parse failure drops only that candidate. -/
def diamondCtsL (mf : List Char) : List Cand :=
  (caratFindall mf).filterMap (fun m =>
    match parse_ctL m.1 with
    | some q => if fracLt q ⟨5, 1⟩ then some (trimWs m.1, trimWs m.2, q) else none
    | none => none)

/-- `min(diamond_cts, key=lambda x: x[2])`: the first candidate of minimal
parsed value (Python `min` keeps the earliest of equal minima). -/
def selectSmallest : List Cand → Option Cand
  | [] => none
  | x :: xs => some (xs.foldl (fun b c => if fracLt c.2.2 b.2.2 then c else b) x)

/-- The part of `extract_diamond_weight` that runs on `metal_free_text`. -/
def dwFromMetalFree (mf : List Char) : Option String :=
  if exclusionWords.any (fun w => isSubL w mf) then none
  else
    match selectSmallest (diamondCtsL mf) with
    | none => none
    | some c => (standardize_diawt_value (c.1 ++ ' ' :: c.2.1)).map String.mk

/-- `extract_diamond_weight(text)` from `db_inseartin.py` (the spec's
`extract_carat_weight`). -/
def extract_diamond_weight (text : String) : Option String :=
  if text = "" then none
  else dwFromMetalFree (metalFreeOf text)

/-- `extract_diamond_weight(None)` / `extract_diamond_weight(s)`. -/
def extract_diamond_weight_opt : Option String → Option String
  | none => none
  | some s => extract_diamond_weight s

/-! ### Engine lemmas

`StepPos prev l p2 l2` says that position `(p2, l2)` is reachable from
position `(prev, l)` by consuming zero or more characters: either nothing was
consumed, or `l2` is a proper suffix of `l` and `p2` is the character of `l`
immediately before `l2`. -/

def StepPos (prev : Option Char) (l : List Char) (p2 : Option Char) (l2 : List Char) : Prop :=
  (p2 = prev ∧ l2 = l) ∨ ∃ l0 c, l = l0 ++ c :: l2 ∧ p2 = some c

theorem stepPos_refl (prev : Option Char) (l : List Char) : StepPos prev l prev l :=
  Or.inl ⟨rfl, rfl⟩

theorem stepPos_trans {prev l p1 l1 p2 l2} (h2 : StepPos p1 l1 p2 l2)
    (h1 : StepPos prev l p1 l1) : StepPos prev l p2 l2 := by
  rcases h2 with ⟨hp, hl⟩ | ⟨m0, c, hl, hp⟩
  · subst hp; subst hl; exact h1
  · rcases h1 with ⟨hq, hk⟩ | ⟨m1, d, hk, hq⟩
    · subst hk
      exact Or.inr ⟨m0, c, hl, hp⟩
    · subst hl
      exact Or.inr ⟨m1 ++ d :: m0, c, by simp [hk], hp⟩

theorem stepPos_suffix {prev l p2 l2} (h : StepPos prev l p2 l2) :
    ∃ pre, l = pre ++ l2 := by
  rcases h with ⟨_, hl⟩ | ⟨l0, c, hl, _⟩
  · exact ⟨[], by simp [hl]⟩
  · exact ⟨l0 ++ [c], by simp [hl]⟩

/-- Wherever `starM` succeeds, the continuation was invoked at a position
reachable from the starting one. -/
theorem starM_call {α : Type} (p : Char → Bool) :
    ∀ (l : List Char) (prev : Option Char) (k : Option Char → List Char → Option α) (a : α),
      starM p prev l k = some a →
      ∃ p2 l2, k p2 l2 = some a ∧ StepPos prev l p2 l2 := by
  intro l
  induction l with
  | nil =>
    intro prev k a h
    exact ⟨prev, [], h, stepPos_refl _ _⟩
  | cons c rest ih =>
    intro prev k a h
    simp only [starM] at h
    by_cases hc : p c
    · rw [if_pos hc] at h
      rcases hm : starM p (some c) rest k with _ | x
      · rw [hm] at h
        exact ⟨prev, c :: rest, h, stepPos_refl _ _⟩
      · rw [hm] at h
        cases h
        obtain ⟨p2, l2, hk, hpos⟩ := ih (some c) k a hm
        refine ⟨p2, l2, hk, stepPos_trans hpos (Or.inr ⟨[], c, rfl, rfl⟩)⟩
    · rw [if_neg hc] at h
      exact ⟨prev, c :: rest, h, stepPos_refl _ _⟩

/-- Wherever `matchM` succeeds, the continuation was invoked at a position
reachable from the starting one. -/
theorem matchM_call {α : Type} :
    ∀ (r : RE) (prev : Option Char) (l : List Char)
      (k : Option Char → List Char → Option α) (a : α),
      matchM r prev l k = some a →
      ∃ p2 l2, k p2 l2 = some a ∧ StepPos prev l p2 l2 := by
  intro r
  induction r with
  | eps =>
    intro prev l k a h
    exact ⟨prev, l, h, stepPos_refl _ _⟩
  | cls p =>
    intro prev l k a h
    cases l with
    | nil => simp [matchM] at h
    | cons c rest =>
      simp only [matchM] at h
      by_cases hc : p c
      · rw [if_pos hc] at h
        exact ⟨some c, rest, h, Or.inr ⟨[], c, rfl, rfl⟩⟩
      · rw [if_neg hc] at h
        cases h
  | seq a b iha ihb =>
    intro prev l k x h
    simp only [matchM] at h
    obtain ⟨p1, l1, hk1, hpos1⟩ := iha prev l _ x h
    obtain ⟨p2, l2, hk2, hpos2⟩ := ihb p1 l1 _ x hk1
    exact ⟨p2, l2, hk2, stepPos_trans hpos2 hpos1⟩
  | alt a b iha ihb =>
    intro prev l k x h
    simp only [matchM] at h
    rcases hm : matchM a prev l k with _ | y
    · rw [hm] at h
      exact ihb prev l k x h
    · rw [hm] at h
      cases h
      exact iha prev l k x hm
  | star p =>
    intro prev l k a h
    exact starM_call p l prev k a h
  | wordB =>
    intro prev l k a h
    simp only [matchM] at h
    split at h
    · exact ⟨prev, l, h, stepPos_refl _ _⟩
    · cases h
  | nlb p =>
    intro prev l k a h
    cases prev with
    | none =>
      simp only [matchM] at h
      exact ⟨none, l, h, stepPos_refl _ _⟩
    | some c =>
      simp only [matchM] at h
      by_cases hc : p c
      · rw [if_pos hc] at h; cases h
      · rw [if_neg hc] at h
        exact ⟨some c, l, h, stepPos_refl _ _⟩

/-- Success of `starM` is preserved when the continuation becomes more
permissive. -/
theorem starM_mono {α β : Type} (p : Char → Bool) :
    ∀ (l : List Char) (prev : Option Char)
      (k1 : Option Char → List Char → Option α)
      (k2 : Option Char → List Char → Option β),
      (∀ p2 l2, (k1 p2 l2).isSome → (k2 p2 l2).isSome) →
      (starM p prev l k1).isSome → (starM p prev l k2).isSome := by
  intro l
  induction l with
  | nil =>
    intro prev k1 k2 hk h
    exact hk _ _ h
  | cons c rest ih =>
    intro prev k1 k2 hk h
    simp only [starM] at h ⊢
    by_cases hc : p c
    · rw [if_pos hc] at h ⊢
      rcases hm : starM p (some c) rest k1 with _ | x
      · rw [hm] at h
        have h2 := hk _ _ h
        rcases hm2 : starM p (some c) rest k2 with _ | y
        · simpa [hm2] using h2
        · simp [hm2]
      · have h1 : (starM p (some c) rest k1).isSome := by simp [hm]
        have h2 := ih (some c) k1 k2 hk h1
        rcases hm2 : starM p (some c) rest k2 with _ | y
        · rw [hm2] at h2; cases h2
        · simp [hm2]
    · rw [if_neg hc] at h ⊢
      exact hk _ _ h

/-- Success of `matchM` is preserved when the continuation becomes more
permissive. -/
theorem matchM_mono {α β : Type} :
    ∀ (r : RE) (prev : Option Char) (l : List Char)
      (k1 : Option Char → List Char → Option α)
      (k2 : Option Char → List Char → Option β),
      (∀ p2 l2, (k1 p2 l2).isSome → (k2 p2 l2).isSome) →
      (matchM r prev l k1).isSome → (matchM r prev l k2).isSome := by
  intro r
  induction r with
  | eps =>
    intro prev l k1 k2 hk h
    exact hk _ _ h
  | cls p =>
    intro prev l k1 k2 hk h
    cases l with
    | nil => simp [matchM] at h
    | cons c rest =>
      simp only [matchM] at h ⊢
      by_cases hc : p c
      · rw [if_pos hc] at h ⊢
        exact hk _ _ h
      · rw [if_neg hc] at h
        cases h
  | seq a b iha ihb =>
    intro prev l k1 k2 hk h
    simp only [matchM] at h ⊢
    exact iha prev l _ _ (fun p2 l2 => ihb p2 l2 _ _ hk) h
  | alt a b iha ihb =>
    intro prev l k1 k2 hk h
    simp only [matchM] at h ⊢
    rcases hm : matchM a prev l k1 with _ | x
    · rw [hm] at h
      have h2 := ihb prev l k1 k2 hk h
      rcases hm2 : matchM a prev l k2 with _ | y
      · exact h2
      · simp
    · have h1 : (matchM a prev l k1).isSome := by simp [hm]
      have h2 := iha prev l k1 k2 hk h1
      rcases hm2 : matchM a prev l k2 with _ | y
      · rw [hm2] at h2; cases h2
      · simp
  | star p =>
    intro prev l k1 k2 hk h
    exact starM_mono p l prev k1 k2 hk h
  | wordB =>
    intro prev l k1 k2 hk h
    simp only [matchM] at h ⊢
    split at h
    · split
      · exact hk _ _ h
      · simp_all
    · cases h
  | nlb p =>
    intro prev l k1 k2 hk h
    cases prev with
    | none =>
      simp only [matchM] at h ⊢
      exact hk _ _ h
    | some c =>
      simp only [matchM] at h ⊢
      by_cases hc : p c
      · rw [if_pos hc] at h; cases h
      · rw [if_neg hc] at h ⊢
        exact hk _ _ h

/-- Unfolding equation for `seq`, used for targeted rewriting. -/
theorem matchM_seq {α : Type} (a b : RE) (prev : Option Char) (l : List Char)
    (k : Option Char → List Char → Option α) :
    matchM (RE.seq a b) prev l k = matchM a prev l (fun p2 l2 => matchM b p2 l2 k) := rfl

/-- Wherever `starM` succeeds starting from a previous character satisfying
`p`, the continuation was invoked with a previous character satisfying `p`,
at a position strictly inside `c :: l`. -/
theorem starM_call_p {α : Type} (p : Char → Bool) :
    ∀ (l : List Char) (c : Char) (k : Option Char → List Char → Option α) (a : α),
      p c = true → starM p (some c) l k = some a →
      ∃ c2 l2 l0, p c2 = true ∧ c :: l = l0 ++ c2 :: l2 ∧ k (some c2) l2 = some a := by
  intro l
  induction l with
  | nil =>
    intro c k a hc h
    exact ⟨c, [], [], hc, rfl, h⟩
  | cons d rest ih =>
    intro c k a hc h
    simp only [starM] at h
    by_cases hd : p d
    · rw [if_pos hd] at h
      rcases hm : starM p (some d) rest k with _ | x
      · rw [hm] at h
        exact ⟨c, d :: rest, [], hc, rfl, h⟩
      · rw [hm] at h
        cases h
        obtain ⟨c2, l2, l0, hc2, hdec, hk⟩ := ih d k a hd hm
        exact ⟨c2, l2, c :: l0, hc2, by rw [List.cons_append, ← hdec], hk⟩
    · rw [if_neg hd] at h
      exact ⟨c, d :: rest, [], hc, rfl, h⟩

/-- Wherever `\s+` (= `wsPlus`) succeeds, the continuation was invoked with a
whitespace previous character sitting immediately before the rest, inside the
input. -/
theorem wsPlus_call {α : Type} (prev : Option Char) (l : List Char)
    (k : Option Char → List Char → Option α) (a : α)
    (h : matchM wsPlus prev l k = some a) :
    ∃ c2 l2 l0, isSpaceCh c2 = true ∧ l = l0 ++ c2 :: l2 ∧ k (some c2) l2 = some a := by
  cases l with
  | nil => simp [wsPlus, matchM] at h
  | cons c rest =>
    simp only [wsPlus, matchM] at h
    by_cases hc : isSpaceCh c
    · rw [if_pos hc] at h
      obtain ⟨c2, l2, l0, hc2, hdec, hk⟩ := starM_call_p isSpaceCh rest c _ a hc h
      exact ⟨c2, l2, l0, hc2, hdec, hk⟩
    · rw [if_neg hc] at h
      cases h

/-- `\s+` implies `\s*` (with the same continuation). -/
theorem wsPlus_to_star {α : Type} (prev : Option Char) (l : List Char)
    (k : Option Char → List Char → Option α)
    (h : (matchM wsPlus prev l k).isSome) : (matchM wsStar prev l k).isSome := by
  cases l with
  | nil => simp [wsPlus, matchM] at h
  | cons c rest =>
    simp only [wsPlus, matchM] at h
    by_cases hc : isSpaceCh c
    · rw [if_pos hc] at h
      simp only [wsStar, matchM, starM]
      rw [if_pos hc]
      rcases hm : starM isSpaceCh (some c) rest k with _ | x
      · rw [hm] at h; cases h
      · simp [hm]
    · rw [if_neg hc] at h
      cases h

/-- If the second branch of an alternation succeeds, so does the
alternation. -/
theorem matchM_alt_right {α : Type} {a b : RE} {prev l} {k : Option Char → List Char → Option α}
    (h : (matchM b prev l k).isSome) : (matchM (RE.alt a b) prev l k).isSome := by
  simp only [matchM]
  rcases hm : matchM a prev l k with _ | x
  · exact h
  · simp

theorem matchM_alt_left {α : Type} {a b : RE} {prev l} {k : Option Char → List Char → Option α}
    (h : (matchM a prev l k).isSome) : (matchM (RE.alt a b) prev l k).isSome := by
  simp only [matchM]
  rcases hm : matchM a prev l k with _ | x
  · rw [hm] at h; cases h
  · simp

/-- If a member of an alternation list matches, the alternation matches. -/
theorem alts_inject {α : Type} {x : RE} {L : List RE} (hx : x ∈ L) :
    ∀ {prev l} {k : Option Char → List Char → Option α},
      (matchM x prev l k).isSome → (matchM (alts L) prev l k).isSome := by
  induction L with
  | nil => cases hx
  | cons y ys ih =>
    intro prev l k h
    rcases List.mem_cons.mp hx with hxy | hmem
    · subst hxy
      exact matchM_alt_left h
    · exact matchM_alt_right (ih hmem h)

/-- If an alternation matches, some member matches. -/
theorem alts_cases {α : Type} {L : List RE} :
    ∀ {prev l} {k : Option Char → List Char → Option α},
      (matchM (alts L) prev l k).isSome → ∃ x ∈ L, (matchM x prev l k).isSome := by
  induction L with
  | nil =>
    intro prev l k h
    cases l with
    | nil => simp [alts, matchM] at h
    | cons c rest => simp [alts, matchM] at h
  | cons y ys ih =>
    intro prev l k h
    simp only [alts, List.foldr] at h
    simp only [matchM] at h
    rcases hm : matchM y prev l k with _ | x
    · rw [hm] at h
      obtain ⟨x, hx, hs⟩ := ih h
      exact ⟨x, List.mem_cons_of_mem _ hx, hs⟩
    · exact ⟨y, List.mem_cons_self _ _, by simp [hm]⟩

/-- A literal regex built by `strL (c :: cs)` can only match text starting
with `c`. -/
theorem strL_head {α : Type} {c : Char} {cs : List Char} {prev l}
    {k : Option Char → List Char → Option α}
    (h : (matchM (strL (c :: cs)) prev l k).isSome) : ∃ r2, l = c :: r2 := by
  cases l with
  | nil => simp [strL, matchM, chrRE] at h
  | cons d rest =>
    simp only [strL, matchM, chrRE] at h
    by_cases hd : d == c
    · have hdc : d = c := by simpa using hd
      subst hdc
      exact ⟨rest, rfl⟩
    · rw [if_neg hd] at h
      simp at h

/-- A whitespace character is not a word character. -/
theorem space_not_word {c : Char} (h : isSpaceCh c = true) : isWordCh c = false := by
  simp only [isSpaceCh, Bool.or_eq_true, beq_iff_eq] at h
  rcases h with ((((h | h) | h) | h) | h) | h <;> subst h <;> decide

/-- Any successful match of the fallback metal-name alternation starts with a
word character. -/
theorem fb_head_word {α : Type} {prev l} {k : Option Char → List Char → Option α}
    (h : (matchM (alts fbNameAlts) prev l k).isSome) :
    ∃ c2 r2, l = c2 :: r2 ∧ isWordCh c2 = true := by
  obtain ⟨x, hx, hs⟩ := alts_cases h
  have hw : ∀ (c : Char) (cs : List Char) {kk : Option Char → List Char → Option α},
      isWordCh c = true → (matchM (strL (c :: cs)) prev l kk).isSome →
      ∃ c2 r2, l = c2 :: r2 ∧ isWordCh c2 = true := by
    intro c cs kk hcw hsome
    obtain ⟨r2, hr⟩ := strL_head hsome
    exact ⟨c, r2, hr, hcw⟩
  simp only [fbNameAlts] at hx
  rcases List.mem_cons.mp hx with rfl | hx
  · rw [show toL "PLATINUM" = 'P' :: toL "LATINUM" from rfl] at hs
    exact hw 'P' (toL "LATINUM") (by decide) hs
  rcases List.mem_cons.mp hx with rfl | hx
  · rw [matchM_seq] at hs
    rw [show toL "STERLING" = 'S' :: toL "TERLING" from rfl] at hs
    exact hw 'S' (toL "TERLING") (by decide) hs
  rcases List.mem_cons.mp hx with rfl | hx
  · rw [show toL "SILVER" = 'S' :: toL "ILVER" from rfl] at hs
    exact hw 'S' (toL "ILVER") (by decide) hs
  rcases List.mem_cons.mp hx with rfl | hx
  · rw [show toL "TITANIUM" = 'T' :: toL "ITANIUM" from rfl] at hs
    exact hw 'T' (toL "ITANIUM") (by decide) hs
  rcases List.mem_cons.mp hx with rfl | hx
  · rw [show toL "BRASS" = 'B' :: toL "RASS" from rfl] at hs
    exact hw 'B' (toL "RASS") (by decide) hs
  rcases List.mem_cons.mp hx with rfl | hx
  · rw [show toL "PALLADIUM" = 'P' :: toL "ALLADIUM" from rfl] at hs
    exact hw 'P' (toL "ALLADIUM") (by decide) hs
  rcases List.mem_cons.mp hx with rfl | hx
  · rw [show toL "COPPER" = 'C' :: toL "OPPER" from rfl] at hs
    exact hw 'C' (toL "OPPER") (by decide) hs
  rcases List.mem_cons.mp hx with rfl | hx
  · rw [show toL "ALLOY" = 'A' :: toL "LLOY" from rfl] at hs
    exact hw 'A' (toL "LLOY") (by decide) hs
  cases hx

/-- Any text matched by the fallback regex's metal-name alternation is also
matched by pattern family (b)'s name alternation (`\s+` relaxes to `\s*`),
for any weakening of the continuation. -/
theorem fb_to_names {α β : Type} {prev l}
    {k1 : Option Char → List Char → Option α} {k2 : Option Char → List Char → Option β}
    (hk : ∀ p2 l2, (k1 p2 l2).isSome → (k2 p2 l2).isSome)
    (h : (matchM (alts fbNameAlts) prev l k1).isSome) :
    (matchM (alts metalNameAlts) prev l k2).isSome := by
  obtain ⟨x, hx, hs⟩ := alts_cases h
  simp only [fbNameAlts] at hx
  rcases List.mem_cons.mp hx with rfl | hx
  · exact alts_inject (by simp [metalNameAlts]) (matchM_mono _ prev l k1 k2 hk hs)
  rcases List.mem_cons.mp hx with rfl | hx
  · -- STERLING\s+SILVER to STERLING\s*SILVER
    have hstep : ∀ p2 l2,
        (matchM (RE.seq wsPlus (strL (toL "SILVER"))) p2 l2 k1).isSome →
        (matchM (RE.seq wsStar (strL (toL "SILVER"))) p2 l2 k2).isSome := by
      intro p2 l2 hh
      rw [matchM_seq] at hh ⊢
      have hh2 : (matchM wsPlus p2 l2
          (fun p3 l3 => matchM (strL (toL "SILVER")) p3 l3 k2)).isSome :=
        matchM_mono wsPlus p2 l2 _ _
          (fun p3 l3 => matchM_mono (strL (toL "SILVER")) p3 l3 k1 k2 hk) hh
      exact wsPlus_to_star p2 l2 _ hh2
    have hs2 : (matchM (RE.seq (strL (toL "STERLING"))
        (RE.seq wsStar (strL (toL "SILVER")))) prev l k2).isSome := by
      rw [matchM_seq] at hs ⊢
      exact matchM_mono (strL (toL "STERLING")) prev l _ _ hstep hs
    exact alts_inject (by simp [metalNameAlts]) hs2
  rcases List.mem_cons.mp hx with rfl | hx
  · exact alts_inject (by simp [metalNameAlts]) (matchM_mono _ prev l k1 k2 hk hs)
  rcases List.mem_cons.mp hx with rfl | hx
  · exact alts_inject (by simp [metalNameAlts]) (matchM_mono _ prev l k1 k2 hk hs)
  rcases List.mem_cons.mp hx with rfl | hx
  · exact alts_inject (by simp [metalNameAlts]) (matchM_mono _ prev l k1 k2 hk hs)
  rcases List.mem_cons.mp hx with rfl | hx
  · exact alts_inject (by simp [metalNameAlts]) (matchM_mono _ prev l k1 k2 hk hs)
  rcases List.mem_cons.mp hx with rfl | hx
  · exact alts_inject (by simp [metalNameAlts]) (matchM_mono _ prev l k1 k2 hk hs)
  rcases List.mem_cons.mp hx with rfl | hx
  · exact alts_inject (by simp [metalNameAlts]) (matchM_mono _ prev l k1 k2 hk hs)
  cases hx

/-- If the scanning collector returns no matches (with sufficient fuel), then
the matcher fails at the start and at every later position. -/
theorem findallF_nil {α : Type} (mh : Option Char → List Char → Option (α × List Char)) :
    ∀ (fuel : ℕ) (l : List Char) (prev : Option Char), l.length < fuel →
      findallF mh fuel prev l = [] →
      mh prev l = none ∧ ∀ l0 c l2, l = l0 ++ c :: l2 → mh (some c) l2 = none := by
  intro fuel
  induction fuel with
  | zero => intro l prev h; omega
  | succ f ih =>
    intro l prev hlen h
    cases l with
    | nil =>
      simp only [findallF] at h
      cases hm : mh prev [] with
      | none =>
        refine ⟨rfl, ?_⟩
        intro l0 c l2 hdec
        exact absurd hdec (by simp)
      | some x =>
        obtain ⟨y, r⟩ := x
        rw [hm] at h
        simp at h
    | cons c rest =>
      simp only [findallF] at h
      cases hm : mh prev (c :: rest) with
      | none =>
        rw [hm] at h
        have hrest : rest.length < f := by
          simp only [List.length_cons] at hlen; omega
        obtain ⟨h1, h2⟩ := ih rest (some c) hrest (by exact h)
        refine ⟨rfl, ?_⟩
        intro l0 c2 l2 hdec
        cases l0 with
        | nil =>
          simp only [List.nil_append, List.cons.injEq] at hdec
          rw [← hdec.1, ← hdec.2]
          exact h1
        | cons d l0r =>
          simp only [List.cons_append, List.cons.injEq] at hdec
          exact h2 l0r c2 l2 hdec.2
      | some x =>
        obtain ⟨y, rem⟩ := x
        rw [hm] at h
        dsimp only at h
        split at h <;> simp at h

/-- If a scanning search succeeds, the matcher succeeded at the start or at
some later position. -/
theorem scanSearch_some {α : Type} (mh : Option Char → List Char → Option α) :
    ∀ (l : List Char) (prev : Option Char) (x : α),
      scanSearch mh prev l = some x →
      mh prev l = some x ∨ ∃ l0 c l2, l = l0 ++ c :: l2 ∧ mh (some c) l2 = some x := by
  intro l
  induction l with
  | nil =>
    intro prev x h
    exact Or.inl h
  | cons c rest ih =>
    intro prev x h
    simp only [scanSearch] at h
    rcases hm : mh prev (c :: rest) with _ | y
    · rw [hm] at h
      rcases ih (some c) x h with h1 | ⟨l0, c2, l2, hdec, h2⟩
      · exact Or.inr ⟨[], c, rest, rfl, h1⟩
      · exact Or.inr ⟨c :: l0, c2, l2, by simp [hdec], h2⟩
    · rw [hm] at h
      cases h
      exact Or.inl rfl

/-! ### List-layer lemmas for `extract_metals` -/

theorem dedupFirst_ne_nil (x : List Char) (xs : List (List Char)) :
    dedupFirst [] (x :: xs) ≠ [] := by
  simp [dedupFirst]

theorem dedupFirst_mem :
    ∀ (l seen : List (List Char)) (y : List Char), y ∈ dedupFirst seen l → y ∈ l := by
  intro l
  induction l with
  | nil => intro seen y h; simp [dedupFirst] at h
  | cons x xs ih =>
    intro seen y h
    simp only [dedupFirst] at h
    by_cases hx : x ∈ seen
    · rw [if_pos hx] at h
      exact List.mem_cons_of_mem _ (ih seen y h)
    · rw [if_neg hx] at h
      rcases List.mem_cons.mp h with rfl | hmem
      · exact List.mem_cons_self _ _
      · exact List.mem_cons_of_mem _ (ih (x :: seen) y hmem)

theorem keepNonSub_acc_prefix :
    ∀ (l acc : List (List Char)), ∃ t, keepNonSub acc l = acc ++ t := by
  intro l
  induction l with
  | nil => intro acc; exact ⟨[], by simp [keepNonSub]⟩
  | cons m ms ih =>
    intro acc
    simp only [keepNonSub]
    by_cases hm : acc.any (fun longer => isSubL m longer)
    · rw [if_pos hm]
      exact ih acc
    · rw [if_neg hm]
      obtain ⟨t, ht⟩ := ih (acc ++ [m])
      exact ⟨m :: t, by simp [ht]⟩

theorem keepNonSub_head (x : List Char) (xs : List (List Char)) :
    ∃ t, keepNonSub [] (x :: xs) = x :: t := by
  simp only [keepNonSub, List.any_nil, Bool.false_eq_true, if_neg, List.nil_append]
  obtain ⟨t, ht⟩ := keepNonSub_acc_prefix xs [x]
  exact ⟨t, by simpa using ht⟩

theorem keepNonSub_ne_nil (x : List Char) (xs : List (List Char)) :
    keepNonSub [] (x :: xs) ≠ [] := by
  obtain ⟨t, ht⟩ := keepNonSub_head x xs
  simp [ht]

theorem keepNonSub_mem :
    ∀ (l acc : List (List Char)) (y : List Char),
      y ∈ keepNonSub acc l → y ∈ acc ∨ y ∈ l := by
  intro l
  induction l with
  | nil => intro acc y h; exact Or.inl (by simpa [keepNonSub] using h)
  | cons m ms ih =>
    intro acc y h
    simp only [keepNonSub] at h
    by_cases hm : acc.any (fun longer => isSubL m longer)
    · rw [if_pos hm] at h
      rcases ih acc y h with h1 | h2
      · exact Or.inl h1
      · exact Or.inr (List.mem_cons_of_mem _ h2)
    · rw [if_neg hm] at h
      rcases ih (acc ++ [m]) y h with h1 | h2
      · rcases List.mem_append.mp h1 with h3 | h4
        · exact Or.inl h3
        · exact Or.inr (List.mem_cons.mpr (Or.inl (by simpa using h4)))
      · exact Or.inr (List.mem_cons_of_mem _ h2)

/-- The greedy filter keeps a match only if it is not a substring of an
already-kept match: pairwise, no later element is a substring of an earlier
one. -/
theorem keepNonSub_pairwise :
    ∀ (l acc : List (List Char)),
      acc.Pairwise (fun a b => isSubL b a = false) →
      (keepNonSub acc l).Pairwise (fun a b => isSubL b a = false) := by
  intro l
  induction l with
  | nil => intro acc hacc; simpa [keepNonSub] using hacc
  | cons m ms ih =>
    intro acc hacc
    simp only [keepNonSub]
    by_cases hm : acc.any (fun longer => isSubL m longer)
    · rw [if_pos hm]
      exact ih acc hacc
    · rw [if_neg hm]
      refine ih (acc ++ [m]) ?_
      rw [List.pairwise_append]
      refine ⟨hacc, List.pairwise_singleton _ _, ?_⟩
      intro a ha b hb
      rcases List.mem_singleton.mp hb with rfl
      have := List.any_eq_true.not.mp hm
      push_neg at this
      have h2 := this a ha
      simpa using h2

/-! ### Numeric lemmas -/

theorem mkFrac_den_pos {n d : ℤ} (hd : d ≠ 0) : 0 < (mkFrac n d).den := by
  unfold mkFrac
  by_cases h : d < 0
  · rw [if_pos h]
    show 0 < -d
    omega
  · rw [if_neg h]
    show 0 < d
    omega

theorem parseFloatPy_den_pos {s : List Char} {f : Frac}
    (h : parseFloatPy s = some f) : 0 < f.den := by
  unfold parseFloatPy at h
  split at h
  · rcases hd : digitsVal _ with _ | n
    · rw [hd] at h; cases h
    · rw [hd] at h
      cases h
      exact one_pos
  · split at h
    · cases h
    · split at h
      · simp only [Option.some.injEq] at h
        rw [← h]
        positivity
      · cases h
  · cases h

theorem parse_ctL_den_pos {val : List Char} {f : Frac}
    (h : parse_ctL val = some f) : 0 < f.den := by
  unfold parse_ctL at h
  split at h
  · split at h
    · split at h
      · split at h
        · split at h
          · cases h
          · rename_i n d hn hfn hfd hd
            simp only [Option.some.injEq] at h
            rw [← h]
            exact mkFrac_den_pos (by
              have h1 := parseFloatPy_den_pos hfn
              intro hz
              rcases mul_eq_zero.mp hz with h2 | h3
              · omega
              · exact hd h3)
        · cases h
      · cases h
    · cases h
  · split at h
    · split at h
      · split at h
        · split at h
          · cases h
          · rename_i n d hfn hfd hd
            simp only [Option.some.injEq] at h
            rw [← h]
            exact mkFrac_den_pos (by
              have h1 := parseFloatPy_den_pos hfn
              intro hz
              rcases mul_eq_zero.mp hz with h2 | h3
              · omega
              · exact hd h3)
        · cases h
      · cases h
    · exact parseFloatPy_den_pos h

theorem fracLt_iff_toRat {a b : Frac} (ha : 0 < a.den) (hb : 0 < b.den) :
    fracLt a b = true ↔ a.toRat < b.toRat := by
  unfold fracLt Frac.toRat
  rw [div_lt_div_iff (by exact_mod_cast ha) (by exact_mod_cast hb)]
  rw [decide_eq_true_eq]
  constructor
  · intro h; exact_mod_cast h
  · intro h; exact_mod_cast h

theorem toRat_five : (Frac.mk 5 1).toRat = 5 := by
  unfold Frac.toRat
  norm_num

/-- Every member of the candidate list has a positive denominator. -/
theorem diamondCtsL_den_pos {mf : List Char} {c : Cand}
    (h : c ∈ diamondCtsL mf) : 0 < c.2.2.den := by
  unfold diamondCtsL at h
  obtain ⟨m, _, hm⟩ := List.mem_filterMap.mp h
  rcases hp : parse_ctL m.1 with _ | q
  · rw [hp] at hm; cases hm
  · rw [hp] at hm
    dsimp only at hm
    split at hm
    · cases hm
      exact parse_ctL_den_pos hp
    · cases hm

/-- Every member of the candidate list parses strictly below five carats. -/
theorem diamondCtsL_lt_five {mf : List Char} {c : Cand}
    (h : c ∈ diamondCtsL mf) : c.2.2.toRat < 5 := by
  unfold diamondCtsL at h
  obtain ⟨m, _, hm⟩ := List.mem_filterMap.mp h
  rcases hp : parse_ctL m.1 with _ | q
  · rw [hp] at hm; cases hm
  · rw [hp] at hm
    dsimp only at hm
    split at hm
    · rename_i hlt
      cases hm
      have hq := parse_ctL_den_pos hp
      have h5 : (0 : ℤ) < (Frac.mk 5 1).den := by decide
      have hr := (fracLt_iff_toRat hq h5).mp hlt
      rw [toRat_five] at hr
      exact hr
    · cases hm

/-- The fold used by `selectSmallest` returns the first list element of
minimal value: it is a member, and no other member is smaller. -/
theorem foldl_min_mem :
    ∀ (xs : List Cand) (x : Cand),
      xs.foldl (fun b c => if fracLt c.2.2 b.2.2 then c else b) x = x ∨
      xs.foldl (fun b c => if fracLt c.2.2 b.2.2 then c else b) x ∈ xs := by
  intro xs
  induction xs with
  | nil => intro x; exact Or.inl rfl
  | cons c cs ih =>
    intro x
    simp only [List.foldl_cons]
    by_cases hc : fracLt c.2.2 x.2.2
    · rw [if_pos hc]
      rcases ih c with h1 | h2
      · exact Or.inr (by rw [h1]; exact List.mem_cons_self _ _)
      · exact Or.inr (List.mem_cons_of_mem _ h2)
    · rw [if_neg hc]
      rcases ih x with h1 | h2
      · exact Or.inl h1
      · exact Or.inr (List.mem_cons_of_mem _ h2)

theorem foldl_min_le :
    ∀ (xs : List Cand) (x : Cand),
      0 < x.2.2.den → (∀ y ∈ xs, 0 < y.2.2.den) →
      (xs.foldl (fun b c => if fracLt c.2.2 b.2.2 then c else b) x).2.2.toRat ≤ x.2.2.toRat ∧
      ∀ c ∈ xs,
        (xs.foldl (fun b c => if fracLt c.2.2 b.2.2 then c else b) x).2.2.toRat ≤ c.2.2.toRat := by
  intro xs
  induction xs with
  | nil =>
    intro x _ _
    exact ⟨le_refl _, by intro c hc; cases hc⟩
  | cons c cs ih =>
    intro x hx hall
    have hc2 : 0 < c.2.2.den := hall c (List.mem_cons_self _ _)
    have hcs : ∀ y ∈ cs, 0 < y.2.2.den := fun y hy => hall y (List.mem_cons_of_mem _ hy)
    simp only [List.foldl_cons]
    by_cases hc : fracLt c.2.2 x.2.2
    · rw [if_pos hc]
      obtain ⟨h1, h2⟩ := ih c hc2 hcs
      have hlt : c.2.2.toRat < x.2.2.toRat := (fracLt_iff_toRat hc2 hx).mp hc
      refine ⟨le_trans h1 (le_of_lt hlt), ?_⟩
      intro d hd
      rcases List.mem_cons.mp hd with rfl | hmem
      · exact h1
      · exact h2 d hmem
    · rw [if_neg hc]
      obtain ⟨h1, h2⟩ := ih x hx hcs
      have hge : x.2.2.toRat ≤ c.2.2.toRat := by
        by_contra hlt
        push_neg at hlt
        exact hc ((fracLt_iff_toRat hc2 hx).mpr hlt)
      refine ⟨h1, ?_⟩
      intro d hd
      rcases List.mem_cons.mp hd with rfl | hmem
      · exact le_trans h1 hge
      · exact h2 d hmem

/-- `selectSmallest` on a non-empty candidate list yields a member of minimal
parsed value. -/
theorem selectSmallest_min {l : List Cand} {c : Cand}
    (hden : ∀ y ∈ l, 0 < y.2.2.den) (hc : c ∈ l) :
    ∃ m, selectSmallest l = some m ∧ m ∈ l ∧ m.2.2.toRat ≤ c.2.2.toRat := by
  cases l with
  | nil => cases hc
  | cons x xs =>
    simp only [selectSmallest, Option.some.injEq]
    refine ⟨xs.foldl (fun b c => if fracLt c.2.2 b.2.2 then c else b) x, rfl, ?_, ?_⟩
    · rcases foldl_min_mem xs x with h1 | h2
      · rw [h1]; exact List.mem_cons_self _ _
      · exact List.mem_cons_of_mem _ h2
    · obtain ⟨h1, h2⟩ := foldl_min_le xs x (hden x (List.mem_cons_self _ _))
        (fun y hy => hden y (List.mem_cons_of_mem _ hy))
      rcases List.mem_cons.mp hc with rfl | hmem
      · exact h1
      · exact h2 c hmem

/-- Unfolding equation for `wordB`, used for targeted rewriting. -/
theorem matchM_wordB {α : Type} (prev : Option Char) (l : List Char)
    (k : Option Char → List Char → Option α) :
    matchM RE.wordB prev l k =
      if ((match prev with | some c => isWordCh c | none => false) !=
          (match l with | c :: _ => isWordCh c | [] => false)) then k prev l else none := rfl

/-! ### Structure of `extract_metalsL` -/

theorem metals_nil_all_nil {t : List Char} (h : extract_metalsL t = []) :
    allMatchesL t = [] := by
  unfold extract_metalsL at h
  cases hs1 : List.insertionSort lenGE (dedupFirst [] (allMatchesL t)) with
  | cons x xs =>
    rw [hs1] at h
    exact absurd h (keepNonSub_ne_nil x xs)
  | nil =>
    have hperm := List.perm_insertionSort lenGE (dedupFirst [] (allMatchesL t))
    rw [hs1] at hperm
    have hs0 : dedupFirst [] (allMatchesL t) = [] := hperm.symm.eq_nil
    cases hall : allMatchesL t with
    | nil => rfl
    | cons a as =>
      rw [hall] at hs0
      exact absurd hs0 (dedupFirst_ne_nil a as)

/-- The first surviving match has maximal length among all survivors. -/
theorem metals_head_longest {t : List Char} {v : List Char} {rest : List (List Char)}
    (h : extract_metalsL t = v :: rest) :
    ∀ m ∈ extract_metalsL t, m.length ≤ v.length := by
  have hmain : ∀ m ∈ extract_metalsL t,
      m ∈ List.insertionSort lenGE (dedupFirst [] (allMatchesL t)) := by
    intro m hm
    unfold extract_metalsL at hm
    rcases keepNonSub_mem _ [] m hm with h1 | h2
    · cases h1
    · exact h2
  cases hs1 : List.insertionSort lenGE (dedupFirst [] (allMatchesL t)) with
  | nil =>
    exfalso
    unfold extract_metalsL at h
    rw [hs1] at h
    simp [keepNonSub] at h
  | cons x xs =>
    have hsorted : List.Sorted lenGE (x :: xs) := by
      rw [← hs1]
      exact List.sorted_insertionSort lenGE _
    have hvx : v = x := by
      unfold extract_metalsL at h
      rw [hs1] at h
      obtain ⟨tl, htl⟩ := keepNonSub_head x xs
      rw [htl] at h
      exact (List.cons.injEq _ _ _ _ ▸ h).1.symm
    intro m hm
    have hmem := hmain m hm
    rw [hs1] at hmem
    rcases List.mem_cons.mp hmem with rfl | hmem2
    · rw [hvx]
    · rw [hvx]
      exact List.rel_of_sorted_cons hsorted m hmem2

/-- Every survivor is one of the collected pattern matches. -/
theorem metals_mem_all {t : List Char} :
    ∀ m ∈ extract_metalsL t, m ∈ allMatchesL t := by
  intro m hm
  unfold extract_metalsL at hm
  rcases keepNonSub_mem _ [] m hm with h1 | h2
  · cases h1
  · have := (List.perm_insertionSort lenGE (dedupFirst [] (allMatchesL t))).mem_iff.mp h2
    exact dedupFirst_mem _ [] m this

/-- No survivor is a substring of an earlier (longer) survivor. -/
theorem metals_pairwise {t : List Char} :
    (extract_metalsL t).Pairwise (fun a b => isSubL b a = false) := by
  unfold extract_metalsL
  exact keepNonSub_pairwise _ [] List.Pairwise.nil

/-! ### The `Diamond <Metal>` fallback never fires when pattern (b) has no
match -/

theorem dmSearch_none_of_no_patB {t : List Char}
    (hB : findallStr patB t = []) : dmSearch t = none := by
  cases hg : dmSearch t with
  | none => rfl
  | some g =>
    exfalso
    unfold dmSearch at hg
    have hcase := scanSearch_some dmAt t none g hg
    have hpos : ∃ pre0 p0 l0r, t = pre0 ++ l0r ∧ dmAt p0 l0r = some g := by
      rcases hcase with h1 | ⟨l0, c, l2, hdec, h2⟩
      · exact ⟨[], none, t, rfl, h1⟩
      · exact ⟨l0 ++ [c], some c, l2, by simp [hdec], h2⟩
    obtain ⟨pre0, p0, l0r, hdec0, hdm⟩ := hpos
    unfold dmAt at hdm
    obtain ⟨p1, l1, hk1, hpos1⟩ := matchM_call _ p0 l0r _ g hdm
    obtain ⟨csp, l2, lm, hsp, hdec1, hk2⟩ := wsPlus_call p1 l1 _ g hk1
    rw [matchM_seq] at hk2
    have hfb : (matchM (alts fbNameAlts) (some csp) l2
        (fun pa la => matchM RE.wordB pa la
          (fun _ l3 => some (l2.take (l2.length - l3.length))))).isSome := by
      rw [hk2]; rfl
    obtain ⟨ch, r2, hl2, hchw⟩ := fb_head_word hfb
    have hcw : isWordCh csp = false := space_not_word hsp
    have hBmatch : (matchSub patB (some csp) l2).isSome := by
      unfold matchSub patB
      rw [matchM_seq, matchM_wordB]
      rw [hl2]
      simp only [hcw, hchw]
      rw [if_pos (by decide)]
      rw [matchM_seq]
      refine fb_to_names ?_ (by rw [← hl2]; exact hfb)
      intro p2 l2x hh
      rw [matchM_wordB] at hh ⊢
      split at hh
      · simp_all
      · cases hh
    have hnil := findallF_nil (matchSub patB) (t.length + 1) t none (by omega) (by
      unfold findallStr findallG at hB
      exact hB)
    obtain ⟨pre1, hdecp⟩ := stepPos_suffix hpos1
    have hdect : t = (pre0 ++ pre1 ++ lm) ++ csp :: l2 := by
      rw [hdec0, hdecp, hdec1]; simp
    have hnone := hnil.2 (pre0 ++ pre1 ++ lm) csp l2 hdect
    rw [hnone] at hBmatch
    cases hBmatch

/-! ### Claim theorems -/

/-- C10: `extract_karat_info` is equivalent to the same function with the
`Diamond <bare-metal>` fallback branch removed: whenever that fallback regex
matches, pattern family (b) already matches the same metal name, so
`extract_metals` is non-empty and the function returns before reaching the
fallback; the branch never determines the result. -/
theorem C10_fallback_branch_dead :
    ∀ text : String, extract_karat_info text = extract_karat_info_noFallback text := by
  intro text
  unfold extract_karat_info extract_karat_info_noFallback
  by_cases ht : text = ""
  · rw [if_pos ht, if_pos ht]
  · rw [if_neg ht, if_neg ht]
    cases hm : extract_metalsL (upperL text.toList) with
    | cons v rest => rfl
    | nil =>
      have hall := metals_nil_all_nil hm
      have hB : findallStr patB (upperL text.toList) = [] := by
        unfold allMatchesL at hall
        exact (List.append_eq_nil.mp (List.append_eq_nil.mp hall).1).2
      dsimp only
      rw [dmSearch_none_of_no_patB hB]

/-- C1: among surviving carat candidates, `extract_diamond_weight` selects
one of smallest parsed numeric value (`1-3/4` compared as `1.75 = 7/4`) and
formats the original matched number substring, not the parsed value, into
the output. -/
theorem C1_smallest_wins :
    (extract_diamond_weight "2 ct Total, Center Stone 0.25 ct" = some "0.25ct") ∧
    (extract_diamond_weight "1-3/4 ct" = some "1-3/4ct") ∧
    ((parse_ct "1-3/4").map Frac.toRat = some ((7 : ℚ) / 4)) ∧
    ∀ (mf : List Char) (c : Cand), c ∈ diamondCtsL mf →
      ∃ m, selectSmallest (diamondCtsL mf) = some m ∧ m ∈ diamondCtsL mf ∧
        m.2.2.toRat ≤ c.2.2.toRat := by
  refine ⟨by decide, by decide, ?_, ?_⟩
  · have h : parse_ct "1-3/4" = some ⟨7, 4⟩ := by decide
    rw [h]
    simp only [Option.map_some', Option.some.injEq]
    unfold Frac.toRat
    norm_num
  · intro mf c hc
    exact selectSmallest_min (fun y hy => diamondCtsL_den_pos hy) hc

/-- C1 witness: the candidate list of `"2 CT TOTAL. CENTER STONE 0.25 CT"`
contains the `2 ct` candidate, and the selected candidate is no larger. -/
theorem C1_smallest_wins_witness :
    (toL "2", toL "CT", (⟨2, 1⟩ : Frac)) ∈
      diamondCtsL (toL "2 CT TOTAL. CENTER STONE 0.25 CT") ∧
    ∃ m, selectSmallest (diamondCtsL (toL "2 CT TOTAL. CENTER STONE 0.25 CT")) = some m ∧
      m ∈ diamondCtsL (toL "2 CT TOTAL. CENTER STONE 0.25 CT") ∧
      m.2.2.toRat ≤ (Frac.mk 2 1).toRat :=
  ⟨by decide, C1_smallest_wins.2.2.2 (toL "2 CT TOTAL. CENTER STONE 0.25 CT")
    (toL "2", toL "CT", ⟨2, 1⟩) (by decide)⟩

/-- C2: `extract_metals` collects matches from all three pattern families,
keeps a match only if it is not a substring of a longer kept match, and the
canonical (first) value is a longest survivor; `"14K White Gold Ring"` yields
`"14k white gold"`, never `"14k"` or `"white gold"` alone. -/
theorem C2_longest_most_descriptive :
    (extract_metals "14K White Gold Ring" = ["14K WHITE GOLD"]) ∧
    (extract_karat_info "14K White Gold Ring" = some "14k white gold") ∧
    (∀ (t v : List Char) (rest : List (List Char)),
       extract_metalsL t = v :: rest → ∀ m ∈ extract_metalsL t, m.length ≤ v.length) ∧
    (∀ t : List Char, ∀ m ∈ extract_metalsL t, m ∈ allMatchesL t) ∧
    (∀ t : List Char, (extract_metalsL t).Pairwise (fun a b => isSubL b a = false)) := by
  refine ⟨by decide, by decide, ?_, ?_, ?_⟩
  · intro t v rest h
    exact metals_head_longest h
  · intro t
    exact metals_mem_all
  · intro t
    exact metals_pairwise

/-- C2 witness: on the uppercased example text, every survivor's length is
bounded by the head's. -/
theorem C2_longest_most_descriptive_witness :
    extract_metalsL (toL "14K WHITE GOLD RING") = [toL "14K WHITE GOLD"] ∧
    ∀ m ∈ extract_metalsL (toL "14K WHITE GOLD RING"),
      m.length ≤ (toL "14K WHITE GOLD").length :=
  ⟨by decide, C2_longest_most_descriptive.2.2.1 (toL "14K WHITE GOLD RING")
    (toL "14K WHITE GOLD") [] (by decide)⟩

/-- C3 counterexample: on `"14K Rose & White Gold Band"` the code returns
`"white gold"`, not the claimed `"14k rose & white gold"`: no pattern family
captures the karat number together with the `&`-compound color phrase. -/
theorem C3_compound_counterexample :
    extract_karat_info "14K Rose & White Gold Band" = some "white gold" ∧
    some ("white gold" : String) ≠ some ("14k rose & white gold" : String) :=
  ⟨by decide, by decide⟩

/-- C3 amended: `extract_karat_info "14K Rose & White Gold Band"` returns
`"white gold"`; the collected matches are `"WHITE GOLD"` and `"14K"` (the
`&` interrupts every pattern family, so no single match spans the compound
phrase), and the ampersand-normalization step itself does split on `&`, trim
each side and rejoin with `" & "`, as the spec describes. -/
theorem C3_compound_amended :
    extract_karat_info "14K Rose & White Gold Band" = some "white gold" ∧
    extract_metals "14K Rose & White Gold Band" = ["WHITE GOLD", "14K"] ∧
    ampJoin (toL "ROSE &WHITE GOLD") = toL "ROSE & WHITE GOLD" :=
  ⟨by decide, by decide, by decide⟩

/-- C4: the result of `extract_diamond_weight` depends only on the
metal-stripped text, so a leading karat-number metal descriptor is removed
before carat search; `"14K White Gold 1/2 ct tw Ring"` yields `"1/2ct tw"`
(the leading `14K` is not misparsed), and `"4CT Gold Band"` yields none. -/
theorem C4_leading_metal_stripped :
    (extract_diamond_weight "14K White Gold 1/2 ct tw Ring" = some "1/2ct tw") ∧
    (extract_diamond_weight "4CT Gold Band" = none) ∧
    ∀ t1 t2 : String, metalFreeOf t1 = metalFreeOf t2 →
      extract_diamond_weight t1 = extract_diamond_weight t2 := by
  refine ⟨by decide, by decide, ?_⟩
  intro t1 t2 h
  unfold extract_diamond_weight
  by_cases h1 : t1 = "" <;> by_cases h2 : t2 = ""
  · rw [if_pos h1, if_pos h2]
  · rw [if_pos h1, if_neg h2]
    have hmf : metalFreeOf t2 = [] := by
      rw [← h, h1]
      decide
    rw [hmf]
    decide
  · rw [if_neg h1, if_pos h2]
    have hmf : metalFreeOf t1 = [] := by
      rw [h, h2]
      decide
    rw [hmf]
    decide
  · rw [if_neg h1, if_neg h2, h]

/-- C4 witness: stripping makes the metal-prefixed description equivalent to
the suffix after the descriptor. -/
theorem C4_leading_metal_stripped_witness :
    metalFreeOf "14K White Gold 1/2 ct tw Ring" = metalFreeOf "1/2 ct tw Ring" ∧
    extract_diamond_weight "14K White Gold 1/2 ct tw Ring" =
      extract_diamond_weight "1/2 ct tw Ring" :=
  ⟨by decide, C4_leading_metal_stripped.2.2 "14K White Gold 1/2 ct tw Ring"
    "1/2 ct tw Ring" (by decide)⟩

/-- C5 counterexample: the preprocessing converts every comma, also outside a
numeric context: in `"RING, 0.5 CT"` the comma after `RING` (letter on the
left, space on the right) becomes a period in the searched text, while the
claim says such a comma is left unchanged. -/
theorem C5_comma_counterexample :
    preprocessDW "RING, 0.5 CT" = toL "RING. 0.5 CT" ∧
    toL "RING. 0.5 CT" ≠ toL "RING, 0.5 CT" :=
  ⟨by decide, by decide⟩

/-- C5 amended: in `extract_diamond_weight`'s preprocessing every comma is
converted to a period unconditionally, regardless of neighbouring
characters; in particular `extract_diamond_weight "0,50 ct" = "0.50ct"`. -/
theorem C5_comma_amended :
    (extract_diamond_weight "0,50 ct" = some "0.50ct") ∧
    ∀ (s : String) (i : ℕ), s.toList.get? i = some ',' →
      (preprocessDW s).get? i = some '.' := by
  refine ⟨by decide, ?_⟩
  intro s i h
  unfold preprocessDW upperL
  rw [List.get?_map, List.get?_map, h]
  decide

/-- C5 witness: the comma of `"a,b"` (index 1) is converted. -/
theorem C5_comma_amended_witness :
    ("a,b" : String).toList.get? 1 = some ',' ∧
    (preprocessDW "a,b").get? 1 = some '.' :=
  ⟨by decide, C5_comma_amended.2 "a,b" 1 (by decide)⟩

/-- C6 counterexample: on `"Sterling  Silver Ring"` (two spaces) the
canonical value is `"STERLING  SILVER"`, which is not exactly any bare-metal
name, yet the early return fires via substring containment of `SILVER` and
the code returns `"silver"`; the claim's exact-name rule would instead run
the normalization pass, producing `"sterling  silver"`. -/
theorem C6_bare_metal_counterexample :
    extract_karat_info "Sterling  Silver Ring" = some "silver" ∧
    extract_metalsL (upperL ("Sterling  Silver Ring" : String).toList) =
      [toL "STERLING  SILVER"] ∧
    metalNames.contains (toL "STERLING  SILVER") = false ∧
    String.mk (karatNormalize (upperL (toL "STERLING  SILVER"))) = "sterling  silver" ∧
    ("silver" : String) ≠ "sterling  silver" :=
  ⟨by decide, by decide, by decide, by decide, by decide⟩

/-- C6 amended: the bare-metal early return fires exactly when the canonical
value CONTAINS one of the eight names as a substring (first containing name
in list order wins), returning that name lowercased; only values containing
none of the names go through the remaining normalization steps. -/
theorem C6_bare_metal_amended :
    (extract_karat_info "Sterling  Silver Ring" = some "silver") ∧
    ∀ (text : String) (v : List Char) (rest : List (List Char)),
      text ≠ "" → extract_metalsL (upperL text.toList) = v :: rest →
      (∀ m0, metalNames.find? (fun m => isSubL m (upperL v)) = some m0 →
         extract_karat_info text = some (String.mk (m0.map lowerCh))) ∧
      (metalNames.find? (fun m => isSubL m (upperL v)) = none →
         extract_karat_info text = some (String.mk (karatNormalize (upperL v)))) := by
  refine ⟨by decide, ?_⟩
  intro text v rest ht hm
  constructor
  · intro m0 hf
    unfold extract_karat_info
    rw [if_neg ht, hm]
    dsimp only
    rw [hf]
  · intro hf
    unfold extract_karat_info
    rw [if_neg ht, hm]
    dsimp only
    rw [hf]

/-- C6 witness: on the double-space sterling example the early return fires
through containment of `SILVER`. -/
theorem C6_bare_metal_amended_witness :
    extract_karat_info "Sterling  Silver Ring" =
      some (String.mk ((toL "SILVER").map lowerCh)) :=
  (C6_bare_metal_amended.2 "Sterling  Silver Ring" (toL "STERLING  SILVER") []
    (by decide) (by decide)).1 (toL "SILVER") (by decide)

/-- C7 counterexample: on `"14K White Pendant"` (no `GOLD`) the collected
matches are exactly `["14K"]`: no collected match contains the color
qualifier, refuting the claim that the color is captured when `GOLD` is
absent. -/
theorem C7_color_counterexample :
    extract_metals "14K White Pendant" = ["14K"] ∧
    (extract_metals "14K White Pendant").all
      (fun m => !(m.toList.contains 'W')) = true ∧
    extract_metals "14K White Pendant" ≠ [] :=
  ⟨by decide, by decide, by decide⟩

/-- C7 amended: in pattern family (a) the literal word `GOLD` is required,
not optional; a karat number followed by a color without `GOLD` contributes
only the bare karat number (family (c)), so
`extract_metals "14K White Pendant" = ["14K"]` and
`extract_karat_info "14K White Pendant" = "14k"`, while with `GOLD` present
the color is captured: `extract_metals "14K White Gold Pendant" =
["14K WHITE GOLD"]`. -/
theorem C7_color_amended :
    extract_metals "14K White Pendant" = ["14K"] ∧
    extract_karat_info "14K White Pendant" = some "14k" ∧
    extract_metals "14K White Gold Pendant" = ["14K WHITE GOLD"] :=
  ⟨by decide, by decide, by decide⟩

/-- C8: every carat candidate with parsed value at least `5.0` is discarded
before selection (all surviving candidates parse strictly below five), and
`"14K Gold Item #520 6 ct"`, whose only match is the discarded `6 ct`,
yields none. -/
theorem C8_upper_bound_rejection :
    (extract_diamond_weight "14K Gold Item #520 6 ct" = none) ∧
    ∀ (mf : List Char) (c : Cand), c ∈ diamondCtsL mf → c.2.2.toRat < 5 :=
  ⟨by decide, fun _ _ hc => diamondCtsL_lt_five hc⟩

/-- C8 witness: the surviving candidate of `"0.25 CT"` parses below five. -/
theorem C8_upper_bound_rejection_witness :
    (toL "0.25", toL "CT", (⟨25, 100⟩ : Frac)) ∈ diamondCtsL (toL "0.25 CT") ∧
    (Frac.mk 25 100).toRat < 5 :=
  ⟨by decide, C8_upper_bound_rejection.2 (toL "0.25 CT")
    (toL "0.25", toL "CT", ⟨25, 100⟩) (by decide)⟩

/-- C9: the extractors are total functions returning an optional value:
absent (`None`) and empty inputs yield absent, and a candidate whose numeric
parse fails (here `3/0`, a zero denominator) is dropped while extraction
continues with the remaining candidates. -/
theorem C9_never_raises :
    extract_karat_info_opt none = none ∧
    extract_diamond_weight_opt none = none ∧
    extract_karat_info "" = none ∧
    extract_diamond_weight "" = none ∧
    parse_ct "3/0" = none ∧
    extract_diamond_weight "3/0 ct 1/2 ct" = some "1/2ct" :=
  ⟨rfl, rfl, by decide, by decide, by decide, by decide⟩

end Scraper






